import Mathlib

/-!
Shallow embedding of the `HashMap` integer-key open-addressing table from
`src/lib.rs`, together with a verification of its behavioural claims.

Modelling conventions:

* A `Slot` is modelled as an inductive with constructors `empty` / `taken`:
  the Rust struct stores a `flag : u8` (`EMPTY = 0` / `TAKEN = 1`) plus a key
  and a possibly uninitialised value, but no code path ever reads the key or
  the value of a slot whose flag is `EMPTY` (and freshly allocated buffers are
  zeroed, i.e. all-`EMPTY`), so the two-state inductive is a faithful
  abstraction of the slot state machine.
* The raw buffer of `capacity` slots is modelled as a `List (Slot V)` whose
  length is the capacity; the Rust struct stores `capacity` separately but the
  allocated buffer always has exactly `capacity` slots.
* `usize` arithmetic is modelled on `Nat`; none of the quantities involved
  can overflow at sizes where the allocator would succeed.
* Rust panics (the `assert!` in `resize`, the `unreachable!()` in
  `find_insert_slot`, and the division by zero that `key % capacity` would
  raise at capacity 0 inside `insert_inner`) are modelled by `Option`:
  `none` means the operation panics and produces no state.
* Rust `find` returns `Option<&mut Slot<V>>`; the model returns the probed
  index together with the key and value stored in the found slot, which is
  what the callers (`get`, `insert`, `remove`) project out of the reference.
-/

/-- One storage cell of the table: `flag == EMPTY`, or `flag == TAKEN`
with a key and a value (`struct Slot<T>` in the source). -/
inductive Slot (V : Type) where
  | empty : Slot V
  | taken (key : Nat) (value : V) : Slot V
  deriving DecidableEq, Repr

/-- The open-addressing table (`pub struct HashMap<V>` in the source).
`slots` is the buffer (its length is the stored `capacity` field),
`items` is the occupied-slot counter. -/
structure HashMap (V : Type) where
  slots : List (Slot V)
  items : Nat
  deriving DecidableEq, Repr

namespace HashMap

variable {V : Type}

/-- Rust `pub fn capacity(&self) -> usize` — the buffer always holds exactly
`capacity` slots, so the capacity is the buffer length. -/
def capacity (m : HashMap V) : Nat := m.slots.length

/-- Rust `pub fn len(&self) -> usize`. -/
def len (m : HashMap V) : Nat := m.items

/-- Rust `pub fn new() -> HashMap<V>`: dangling pointer, no slots, capacity 0. -/
def new : HashMap V := ⟨[], 0⟩

/-- Fuel-driven loop computing Rust `usize::next_power_of_two`: start at 1 and
double until the argument is reached. `n` units of fuel always suffice since
`n ≤ 2 ^ n`. -/
def nextPow2Aux (n : Nat) : Nat → Nat → Nat
  | 0, power => power
  | fuel + 1, power => if n ≤ power then power else nextPow2Aux n fuel (2 * power)

/-- Rust `usize::next_power_of_two`: the least power of two that is `≥ n`
(which is 1 when `n = 0`). -/
def nextPow2 (n : Nat) : Nat := nextPow2Aux n n 1

/-- Rust `unsafe fn new_inner(capacity: usize) -> HashMap<V>`: round the request up
to a power of two and allocate a zeroed (all-`empty`) buffer of that size. -/
def new_inner (cap : Nat) : HashMap V :=
  ⟨List.replicate (nextPow2 cap) Slot.empty, 0⟩

/-- Rust `pub fn with_capacity(capacity: usize) -> HashMap<V>`. -/
def with_capacity (cap : Nat) : HashMap V := new_inner cap

/-- Rust `fn prob_seq(&self, hash: usize)`: the probe index sequence
`(hash + idx) % capacity` for `idx = 0, …, capacity - 1`. -/
def prob_seq (m : HashMap V) (hash : Nat) : List Nat :=
  (List.range m.capacity).map (fun idx => (hash + idx) % m.capacity)

/-- Reading the slot at a buffer index (`&mut *slots.add(idx)` in the source;
all indices actually used are in bounds, the default is irrelevant). -/
def slotGet (slots : List (Slot V)) (idx : Nat) : Slot V := slots.getD idx Slot.empty

/-- The probe loop inside `fn find`: walk the index list, give up at the
first `empty` slot, succeed at the first `taken` slot holding the key. -/
def scanFind (slots : List (Slot V)) (key : Nat) : List Nat → Option (Nat × Nat × V)
  | [] => none
  | idx :: rest =>
    match slotGet slots idx with
    | Slot.empty => none
    | Slot.taken k v => if k = key then some (idx, k, v) else scanFind slots key rest

/-- Rust `fn find(&self, key: usize) -> Option<&mut Slot<V>>`: not found at
capacity 0, otherwise probe from `key % capacity`.  The model returns the
index of the found slot together with its stored key and value. -/
def find (m : HashMap V) (key : Nat) : Option (Nat × Nat × V) :=
  if m.capacity = 0 then none
  else scanFind m.slots key (m.prob_seq (key % m.capacity))

/-- The test `slot.flag == EMPTY` as a boolean. -/
def isEmptySlot : Slot V → Bool
  | Slot.empty => true
  | Slot.taken _ _ => false

/-- Rust `fn find_insert_slot(&self, hash: usize) -> usize`: the first index of the
probe sequence whose slot is `empty`; `none` models the `unreachable!()`
panic when the probe sequence is exhausted. -/
def find_insert_slot (m : HashMap V) (hash : Nat) : Option Nat :=
  (m.prob_seq hash).find? (fun idx => isEmptySlot (slotGet m.slots idx))

/-- Rust `pub fn get(&self, key: usize) -> Option<&V>`. -/
def get (m : HashMap V) (key : Nat) : Option V :=
  (m.find key).map (fun r => r.2.2)

/-- Rust `fn insert_inner(&mut self, key: usize, value: V)`: write a fresh `taken`
slot at the first empty probe position and bump `items`.  `none` models the
panic propagated from `find_insert_slot` (including the division by zero of
`key % self.capacity` at capacity 0, where the probe sequence is empty). -/
def insert_inner (m : HashMap V) (key : Nat) (value : V) : Option (HashMap V) :=
  match m.find_insert_slot (key % m.capacity) with
  | none => none
  | some index => some ⟨m.slots.set index (Slot.taken key value), m.items + 1⟩

/-- The migration loop of `pub fn resize`: for each `taken` slot of the old
buffer in index order, move it into the new map at its first empty probe
position for the new capacity and bump the new `items` counter. -/
def resizeLoop : List (Slot V) → HashMap V → Option (HashMap V)
  | [], acc => some acc
  | Slot.empty :: rest, acc => resizeLoop rest acc
  | Slot.taken k v :: rest, acc =>
    match acc.find_insert_slot (k % acc.capacity) with
    | none => none
    | some index => resizeLoop rest ⟨acc.slots.set index (Slot.taken k v), acc.items + 1⟩

/-- Rust `pub fn resize(&mut self, new_size: usize)`: `none` models the
`assert!(new_size >= self.items)` panic; otherwise migrate every taken slot
into a fresh `new_inner new_size` table and swap it in. -/
def resize (m : HashMap V) (new_size : Nat) : Option (HashMap V) :=
  if new_size < m.items then none
  else resizeLoop m.slots (new_inner new_size)

/-- Rust `pub fn reserve(&mut self, additional: usize)`. -/
def reserve (m : HashMap V) (additional : Nat) : Option (HashMap V) :=
  if additional + m.items > m.capacity then m.resize (additional + m.items)
  else some m

/-- Rust `pub fn insert(&mut self, key: usize, value: V) -> Option<V>`: if `find`
succeeds, replace the value of the found slot in place (its key is unchanged)
and return the previous value; otherwise `reserve(1)` then `insert_inner`,
returning `None`. -/
def insert (m : HashMap V) (key : Nat) (value : V) : Option (HashMap V × Option V) :=
  match m.find key with
  | some (idx, k, old) => some (⟨m.slots.set idx (Slot.taken k value), m.items⟩, some old)
  | none =>
    match m.reserve 1 with
    | none => none
    | some m1 =>
      match m1.insert_inner key value with
      | none => none
      | some m2 => some (m2, none)

/-- Rust `pub fn remove(&mut self, key: usize) -> Option<V>`: if `find` succeeds,
set the slot flag back to `EMPTY` (its key and value bytes are never read
again), decrement `items`, and return the stored value. -/
def remove (m : HashMap V) (key : Nat) : HashMap V × Option V :=
  match m.find key with
  | none => (m, none)
  | some (idx, _, v) => (⟨m.slots.set idx Slot.empty, m.items - 1⟩, some v)

/-- The states producible through the public API: construction, `insert`,
`remove`, `reserve`, `resize` (an operation that panics produces no state). -/
inductive Reachable : HashMap V → Prop where
  | new_r : Reachable HashMap.new
  | with_capacity_r (n : Nat) : Reachable (with_capacity n)
  | insert_r {m m' : HashMap V} {k : Nat} {v : V} {r : Option V} :
      Reachable m → m.insert k v = some (m', r) → Reachable m'
  | remove_r {m : HashMap V} (k : Nat) : Reachable m → Reachable (m.remove k).1
  | reserve_r {m m' : HashMap V} (n : Nat) : Reachable m → m.reserve n = some m' → Reachable m'
  | resize_r {m m' : HashMap V} (n : Nat) : Reachable m → m.resize n = some m' → Reachable m'

/-- Number of `taken` slots in a buffer. -/
def countTaken (slots : List (Slot V)) : Nat := slots.countP (fun s => !isEmptySlot s)

/-- The counting invariant: the `items` field counts the taken slots. -/
def Inv (m : HashMap V) : Prop := m.items = countTaken m.slots

/-- The buffer stores the pair `(k, v)` in some slot. -/
def HasPair (slots : List (Slot V)) (k : Nat) (v : V) : Prop :=
  ∃ i, slotGet slots i = Slot.taken k v

/-- Full well-formedness: the counting invariant plus the probe-chain
invariant, phrased as: every stored pair is delivered by `find` at its own
index.  It holds for all states reachable without `remove`. -/
structure WF (m : HashMap V) : Prop where
  count : Inv m
  found : ∀ i k v, slotGet m.slots i = Slot.taken k v → m.find k = some (i, k, v)

/-- The keys of the taken slots of a buffer are pairwise distinct. -/
def KeysNodup : List (Slot V) → Prop
  | [] => True
  | Slot.empty :: rest => KeysNodup rest
  | Slot.taken k _ :: rest => (∀ v, Slot.taken k v ∉ rest) ∧ KeysNodup rest

/-- Run a batch of `insert` calls left to right (`none` if any panics). -/
def runInserts (m : HashMap V) : List (Nat × V) → Option (HashMap V)
  | [] => some m
  | (k, v) :: ops =>
    match m.insert k v with
    | none => none
    | some (m', _) => runInserts m' ops

/-- The last value a batch of inserts writes for a key (later entries win). -/
def lastVal (ops : List (Nat × V)) (key : Nat) : Option V :=
  match ops with
  | [] => none
  | (k, v) :: rest =>
    match lastVal rest key with
    | some w => some w
    | none => if k = key then some v else none

/-- Modelled from the spec: a probe step stops the lookup scan either at an
`Empty` slot or at a `Taken` slot whose key matches. -/
def stopSlot (key : Nat) : Slot V → Bool
  | Slot.empty => true
  | Slot.taken k _ => k == key

/-- Modelled from the spec (§4.1 Lookup): if `capacity == 0`, not found;
otherwise take `start = key % capacity`, scan indices
`(start + i) % capacity` for `i = 0, …, capacity - 1`, stop at the first
`Empty` slot (not found), stop at the first matching `Taken` slot (found,
reported here as the index), not found if the scan is exhausted.  This is the
spec-side definition that claim C2 compares against `find`. -/
def findSpec (m : HashMap V) (key : Nat) : Option Nat :=
  if m.capacity = 0 then none
  else
    let start := key % m.capacity
    let probe := (List.range m.capacity).map (fun i => (start + i) % m.capacity)
    match probe.find? (fun idx => stopSlot key (slotGet m.slots idx)) with
    | none => none
    | some idx =>
      match slotGet m.slots idx with
      | Slot.empty => none
      | Slot.taken _ _ => some idx

/-! ### Basic slot-buffer lemmas -/

@[simp]
theorem slotGet_nil (i : Nat) : slotGet ([] : List (Slot V)) i = Slot.empty := rfl

@[simp]
theorem slotGet_cons_zero {s : Slot V} {l : List (Slot V)} : slotGet (s :: l) 0 = s := rfl

@[simp]
theorem slotGet_cons_succ {s : Slot V} {l : List (Slot V)} {i : Nat} :
    slotGet (s :: l) (i + 1) = slotGet l i := rfl

theorem slotGet_lt_length {slots : List (Slot V)} {i k : Nat} {v : V}
    (h : slotGet slots i = Slot.taken k v) : i < slots.length := by
  by_contra hge
  push_neg at hge
  rw [slotGet, List.getD_eq_default _ _ hge] at h
  exact Slot.noConfusion h

theorem slotGet_set_eq {slots : List (Slot V)} {i : Nat} (h : i < slots.length) (s : Slot V) :
    slotGet (slots.set i s) i = s := by
  induction slots generalizing i with
  | nil => simp at h
  | cons a rest ih =>
    cases i with
    | zero => rfl
    | succ n =>
      rw [List.set_cons_succ, slotGet_cons_succ]
      exact ih (Nat.lt_of_succ_lt_succ h)

theorem slotGet_set_ne {slots : List (Slot V)} {i j : Nat} (h : i ≠ j) (s : Slot V) :
    slotGet (slots.set i s) j = slotGet slots j := by
  induction slots generalizing i j with
  | nil => simp [List.set_nil]
  | cons a rest ih =>
    cases i with
    | zero =>
      cases j with
      | zero => exact absurd rfl h
      | succ n => rfl
    | succ n =>
      cases j with
      | zero => rfl
      | succ p =>
        rw [List.set_cons_succ, slotGet_cons_succ, slotGet_cons_succ]
        exact ih (fun hc => h (congrArg Nat.succ hc))

/-! ### Counting taken slots -/

@[simp]
theorem countTaken_nil : countTaken ([] : List (Slot V)) = 0 := rfl

@[simp]
theorem countTaken_cons_empty {l : List (Slot V)} :
    countTaken (Slot.empty :: l) = countTaken l := by
  simp [countTaken, List.countP_cons, isEmptySlot]

@[simp]
theorem countTaken_cons_taken {k : Nat} {v : V} {l : List (Slot V)} :
    countTaken (Slot.taken k v :: l) = countTaken l + 1 := by
  simp [countTaken, List.countP_cons, isEmptySlot]

theorem countTaken_le_length (l : List (Slot V)) : countTaken l ≤ l.length :=
  List.countP_le_length _

@[simp]
theorem countTaken_replicate (n : Nat) :
    countTaken (List.replicate n (Slot.empty : Slot V)) = 0 := by
  induction n with
  | zero => rfl
  | succ n ih => rw [List.replicate_succ, countTaken_cons_empty, ih]

theorem countTaken_set_taken_of_empty {slots : List (Slot V)} {i : Nat}
    (h : slotGet slots i = Slot.empty) (hi : i < slots.length) (k : Nat) (v : V) :
    countTaken (slots.set i (Slot.taken k v)) = countTaken slots + 1 := by
  induction slots generalizing i with
  | nil => simp at hi
  | cons a rest ih =>
    cases i with
    | zero =>
      rw [slotGet_cons_zero] at h
      subst h
      simp
    | succ n =>
      rw [slotGet_cons_succ] at h
      rw [List.set_cons_succ]
      cases a with
      | empty => simpa using ih h (Nat.lt_of_succ_lt_succ hi)
      | taken k0 v0 =>
        rw [countTaken_cons_taken, countTaken_cons_taken,
          ih h (Nat.lt_of_succ_lt_succ hi)]

theorem countTaken_set_empty_of_taken {slots : List (Slot V)} {i k : Nat} {v : V}
    (h : slotGet slots i = Slot.taken k v) :
    countTaken (slots.set i Slot.empty) + 1 = countTaken slots := by
  induction slots generalizing i with
  | nil => exact Slot.noConfusion h
  | cons a rest ih =>
    cases i with
    | zero =>
      rw [slotGet_cons_zero] at h
      subst h
      simp
    | succ n =>
      rw [slotGet_cons_succ] at h
      rw [List.set_cons_succ]
      cases a with
      | empty => simpa using ih h
      | taken k0 v0 =>
        rw [countTaken_cons_taken, countTaken_cons_taken]
        have := ih h
        omega

theorem countTaken_set_taken_of_taken {slots : List (Slot V)} {i k : Nat} {v : V}
    (h : slotGet slots i = Slot.taken k v) (k' : Nat) (v' : V) :
    countTaken (slots.set i (Slot.taken k' v')) = countTaken slots := by
  induction slots generalizing i with
  | nil => exact Slot.noConfusion h
  | cons a rest ih =>
    cases i with
    | zero =>
      rw [slotGet_cons_zero] at h
      subst h
      simp
    | succ n =>
      rw [slotGet_cons_succ] at h
      rw [List.set_cons_succ]
      cases a with
      | empty => simpa using ih h
      | taken k0 v0 => rw [countTaken_cons_taken, countTaken_cons_taken, ih h]

theorem exists_empty_of_countTaken_lt {slots : List (Slot V)}
    (h : countTaken slots < slots.length) :
    ∃ i, i < slots.length ∧ slotGet slots i = Slot.empty := by
  induction slots with
  | nil => simp at h
  | cons a rest ih =>
    cases a with
    | empty => exact ⟨0, Nat.succ_pos _, rfl⟩
    | taken k v =>
      rw [countTaken_cons_taken, List.length_cons] at h
      obtain ⟨i, hi, hs⟩ := ih (Nat.lt_of_succ_lt_succ h)
      exact ⟨i + 1, Nat.succ_lt_succ hi, hs⟩

theorem taken_mem_iff {slots : List (Slot V)} {k : Nat} {v : V} :
    Slot.taken k v ∈ slots ↔ ∃ i, slotGet slots i = Slot.taken k v := by
  constructor
  · intro hmem
    induction slots with
    | nil => simp at hmem
    | cons a rest ih =>
      rcases List.mem_cons.mp hmem with h | h
      · exact ⟨0, h.symm⟩
      · obtain ⟨i, hi⟩ := ih h
        exact ⟨i + 1, hi⟩
  · rintro ⟨i, hi⟩
    induction slots generalizing i with
    | nil => exact Slot.noConfusion hi
    | cons a rest ih =>
      cases i with
      | zero => exact List.mem_cons.mpr (Or.inl hi.symm)
      | succ n => exact List.mem_cons.mpr (Or.inr (ih n hi))

/-! ### Probe-sequence lemmas -/

theorem capacity_pos_of_mem_prob_seq {m : HashMap V} {hash idx : Nat}
    (h : idx ∈ m.prob_seq hash) : 0 < m.capacity := by
  rcases List.mem_map.mp h with ⟨i, hi, _⟩
  exact Nat.lt_of_le_of_lt (Nat.zero_le i) (List.mem_range.mp hi)

theorem mem_prob_seq_lt {m : HashMap V} {hash idx : Nat}
    (h : idx ∈ m.prob_seq hash) : idx < m.capacity := by
  rcases List.mem_map.mp h with ⟨i, hi, rfl⟩
  exact Nat.mod_lt _ (Nat.lt_of_le_of_lt (Nat.zero_le i) (List.mem_range.mp hi))

theorem prob_seq_length (m : HashMap V) (hash : Nat) :
    (m.prob_seq hash).length = m.capacity := by
  simp [prob_seq]

theorem add_mod_mod (hash i c : Nat) : (hash + i) % c = (hash % c + i) % c :=
  ((Nat.mod_modEq hash c).add_right i).symm

theorem mem_prob_seq_of_lt {m : HashMap V} {hash j : Nat} (hj : j < m.capacity) :
    j ∈ m.prob_seq hash := by
  have hcap : 0 < m.capacity := Nat.lt_of_le_of_lt (Nat.zero_le _) hj
  have hr : hash % m.capacity < m.capacity := Nat.mod_lt _ hcap
  refine List.mem_map.mpr ?_
  by_cases hle : hash % m.capacity ≤ j
  · refine ⟨j - hash % m.capacity, List.mem_range.mpr (by omega), ?_⟩
    rw [add_mod_mod]
    have : hash % m.capacity + (j - hash % m.capacity) = j := by omega
    rw [this, Nat.mod_eq_of_lt hj]
  · refine ⟨m.capacity - hash % m.capacity + j, List.mem_range.mpr (by omega), ?_⟩
    rw [add_mod_mod]
    have : hash % m.capacity + (m.capacity - hash % m.capacity + j) = m.capacity + j := by
      omega
    rw [this, Nat.add_mod_left, Nat.mod_eq_of_lt hj]

theorem prob_seq_nodup (m : HashMap V) (hash : Nat) : (m.prob_seq hash).Nodup := by
  refine List.Nodup.map_on ?_ (List.nodup_range _)
  intro x hx y hy hxy
  rw [List.mem_range] at hx hy
  have hcap : 0 < m.capacity := Nat.lt_of_le_of_lt (Nat.zero_le x) hx
  have hx' : (hash + x) % m.capacity = (hash % m.capacity + x) % m.capacity :=
    add_mod_mod _ _ _
  have hy' : (hash + y) % m.capacity = (hash % m.capacity + y) % m.capacity :=
    add_mod_mod _ _ _
  have hmod : x % m.capacity = y % m.capacity := by
    have h1 : hash + x ≡ hash + y [MOD m.capacity] := hxy
    exact Nat.ModEq.add_left_cancel' hash h1
  rwa [Nat.mod_eq_of_lt hx, Nat.mod_eq_of_lt hy] at hmod

theorem mem_prob_seq_bound {m : HashMap V} {hash idx : Nat}
    (h : idx ∈ m.prob_seq hash) : idx < m.slots.length :=
  mem_prob_seq_lt h

/-! ### Lookup-scan lemmas -/

theorem scanFind_sound {slots : List (Slot V)} {key : Nat} {L : List Nat}
    {i k : Nat} {v : V} (h : scanFind slots key L = some (i, k, v)) :
    i ∈ L ∧ k = key ∧ slotGet slots i = Slot.taken key v := by
  induction L with
  | nil => simp [scanFind] at h
  | cons a rest ih =>
    cases hs : slotGet slots a with
    | empty => simp [scanFind, hs] at h
    | taken k0 v0 =>
      by_cases hk : k0 = key
      · simp only [scanFind, hs, if_pos hk] at h
        obtain ⟨rfl, rfl, rfl⟩ := Prod.mk.injEq .. ▸ Option.some.inj h
        subst hk
        exact ⟨List.mem_cons_self _ _, rfl, hs⟩
      · simp only [scanFind, hs, if_neg hk] at h
        obtain ⟨hmem, hkey, hslot⟩ := ih h
        exact ⟨List.mem_cons_of_mem _ hmem, hkey, hslot⟩

theorem scanFind_none_of_no_key {slots : List (Slot V)} {key : Nat} {L : List Nat}
    (h : ∀ i ∈ L, ∀ v, slotGet slots i ≠ Slot.taken key v) :
    scanFind slots key L = none := by
  induction L with
  | nil => rfl
  | cons a rest ih =>
    cases hs : slotGet slots a with
    | empty => simp [scanFind, hs]
    | taken k0 v0 =>
      have hk : k0 ≠ key := by
        intro hc
        exact h a (List.mem_cons_self _ _) v0 (by rw [hs, hc])
      simp only [scanFind, hs, if_neg hk]
      exact ih (fun i hi => h i (List.mem_cons_of_mem _ hi))

/-- Two buffers that agree on the scanned indices — allowing a slot taken with
the same non-matching key to change value — produce the same scan result. -/
theorem scanFind_congr {slots slots' : List (Slot V)} {key : Nat} {L : List Nat}
    (h : ∀ idx ∈ L, slotGet slots idx = slotGet slots' idx ∨
      ∃ k v v', k ≠ key ∧ slotGet slots idx = Slot.taken k v ∧
        slotGet slots' idx = Slot.taken k v') :
    scanFind slots key L = scanFind slots' key L := by
  induction L with
  | nil => rfl
  | cons a rest ih =>
    have hrest := fun i hi => h i (List.mem_cons_of_mem _ hi)
    rcases h a (List.mem_cons_self _ _) with heq | ⟨k, v, v', hk, h1, h2⟩
    · cases hs : slotGet slots' a with
      | empty => simp [scanFind, heq ▸ hs, hs]
      | taken k0 v0 =>
        by_cases hk : k0 = key
        · simp [scanFind, heq ▸ hs, hs, if_pos hk]
        · simp only [scanFind, heq ▸ hs, hs, if_neg hk]
          exact ih hrest
    · simp only [scanFind, h1, h2, if_neg hk]
      exact ih hrest

/-- Overwriting an `empty` slot cannot disturb a successful scan. -/
theorem scanFind_set_of_empty {slots : List (Slot V)} {key idx : Nat} {L : List Nat}
    {r : Nat × Nat × V} (hidx : slotGet slots idx = Slot.empty) (s : Slot V)
    (h : scanFind slots key L = some r) :
    scanFind (slots.set idx s) key L = some r := by
  induction L with
  | nil => simp [scanFind] at h
  | cons a rest ih =>
    cases hs : slotGet slots a with
    | empty => simp [scanFind, hs] at h
    | taken k0 v0 =>
      have hne : idx ≠ a := by
        intro hc
        rw [hc, hs] at hidx
        exact Slot.noConfusion hidx
      have hs' : slotGet (slots.set idx s) a = Slot.taken k0 v0 := by
        rw [slotGet_set_ne hne, hs]
      by_cases hk : k0 = key
      · simp only [scanFind, hs, if_pos hk] at h
        simp only [scanFind, hs', if_pos hk]
        exact h
      · simp only [scanFind, hs, if_neg hk] at h
        simp only [scanFind, hs', if_neg hk]
        exact ih h

/-- Replacing the value of the slot a successful scan lands on yields the scan
result with the new value. -/
theorem scanFind_set_value {slots : List (Slot V)} {key : Nat} {L : List Nat}
    {j k : Nat} {w : V} (hnd : L.Nodup)
    (h : scanFind slots key L = some (j, k, w)) (v : V) :
    scanFind (slots.set j (Slot.taken k v)) key L = some (j, k, v) := by
  induction L with
  | nil => simp [scanFind] at h
  | cons a rest ih =>
    obtain ⟨hnotmem, hndrest⟩ := List.nodup_cons.mp hnd
    cases hs : slotGet slots a with
    | empty => simp [scanFind, hs] at h
    | taken k0 v0 =>
      by_cases hk : k0 = key
      · simp only [scanFind, hs, if_pos hk] at h
        obtain ⟨rfl, rfl, rfl⟩ : a = j ∧ k0 = k ∧ v0 = w := by
          simpa [Prod.ext_iff] using h
        have hj : a < slots.length := slotGet_lt_length hs
        simp only [scanFind, slotGet_set_eq hj, if_pos hk]
      · simp only [scanFind, hs, if_neg hk] at h
        have hjrest : j ∈ rest := (scanFind_sound h).1
        have hne : j ≠ a := fun hc => hnotmem (hc ▸ hjrest)
        simp only [scanFind, slotGet_set_ne hne, hs, if_neg hk]
        exact ih hndrest h

/-- Writing the key being sought into the first `empty` slot of the probe list
makes the scan succeed there, provided the original scan failed. -/
theorem scanFind_set_new {slots : List (Slot V)} {key idx : Nat} {L : List Nat}
    (hnd : L.Nodup) (hb : ∀ a ∈ L, a < slots.length)
    (hfind : L.find? (fun a => isEmptySlot (slotGet slots a)) = some idx)
    (hnone : scanFind slots key L = none) (v : V) :
    scanFind (slots.set idx (Slot.taken key v)) key L = some (idx, key, v) := by
  induction L with
  | nil => simp at hfind
  | cons a rest ih =>
    obtain ⟨hnotmem, hndrest⟩ := List.nodup_cons.mp hnd
    cases hs : slotGet slots a with
    | empty =>
      rw [List.find?_cons] at hfind
      simp only [hs, isEmptySlot] at hfind
      obtain rfl := Option.some.inj hfind
      have ha : a < slots.length := hb a (List.mem_cons_self _ _)
      simp [scanFind, slotGet_set_eq ha]
    | taken k0 v0 =>
      rw [List.find?_cons] at hfind
      simp only [hs, isEmptySlot] at hfind
      have hk : k0 ≠ key := by
        intro hc
        subst hc
        simp [scanFind, hs] at hnone
      simp only [scanFind, hs, if_neg hk] at hnone
      have hidxrest : idx ∈ rest := List.mem_of_find?_eq_some hfind
      have hne : idx ≠ a := fun hc => hnotmem (hc ▸ hidxrest)
      simp only [scanFind, slotGet_set_ne hne, hs, if_neg hk]
      exact ih hndrest (fun b hbm => hb b (List.mem_cons_of_mem _ hbm)) hfind hnone

/-! ### find and find_insert_slot lemmas -/

@[simp]
theorem slots_mk (L : List (Slot V)) (n : Nat) : (⟨L, n⟩ : HashMap V).slots = L := rfl

@[simp]
theorem items_mk (L : List (Slot V)) (n : Nat) : (⟨L, n⟩ : HashMap V).items = n := rfl

@[simp]
theorem capacity_mk (L : List (Slot V)) (n : Nat) :
    (⟨L, n⟩ : HashMap V).capacity = L.length := rfl

theorem find_sound {m : HashMap V} {key i k : Nat} {v : V}
    (h : m.find key = some (i, k, v)) :
    k = key ∧ slotGet m.slots i = Slot.taken key v ∧ i < m.capacity := by
  rw [find] at h
  split at h
  · exact Option.noConfusion h
  · obtain ⟨hmem, hk, hslot⟩ := scanFind_sound h
    exact ⟨hk, hslot, mem_prob_seq_lt hmem⟩

theorem find_none_of_no_key {m : HashMap V} {key : Nat}
    (h : ∀ i v, slotGet m.slots i ≠ Slot.taken key v) :
    m.find key = none := by
  rw [find]
  split
  · rfl
  · exact scanFind_none_of_no_key (fun i _ v => h i v)

theorem find_insert_slot_sound {m : HashMap V} {hash idx : Nat}
    (h : m.find_insert_slot hash = some idx) :
    slotGet m.slots idx = Slot.empty ∧ idx < m.capacity := by
  have hp := List.find?_some h
  have hmem := List.mem_of_find?_eq_some h
  refine ⟨?_, mem_prob_seq_lt hmem⟩
  cases hs : slotGet m.slots idx with
  | empty => rfl
  | taken k v => rw [hs] at hp; simp [isEmptySlot] at hp

theorem find_insert_slot_total {m : HashMap V} (hash : Nat)
    (hlt : countTaken m.slots < m.capacity) :
    ∃ idx, m.find_insert_slot hash = some idx := by
  obtain ⟨j, hj, hjs⟩ := exists_empty_of_countTaken_lt hlt
  have hsome : ((m.prob_seq hash).find? (fun idx => isEmptySlot (slotGet m.slots idx))).isSome := by
    rw [List.find?_isSome]
    exact ⟨j, mem_prob_seq_of_lt hj, by simp [hjs, isEmptySlot]⟩
  exact Option.isSome_iff_exists.mp hsome

/-! ### Well-formedness machinery -/

theorem wf_get_of_hasPair {m : HashMap V} (hwf : WF m) {k : Nat} {v : V}
    (h : HasPair m.slots k v) : m.get k = some v := by
  obtain ⟨i, hi⟩ := h
  rw [get, hwf.found i k v hi]
  rfl

theorem wf_no_pair_of_find_none {m : HashMap V} (hwf : WF m) {k : Nat}
    (h : m.find k = none) : ∀ i v, slotGet m.slots i ≠ Slot.taken k v := by
  intro i v hc
  rw [hwf.found i k v hc] at h
  exact Option.noConfusion h

theorem hasPair_set_taken_iff {slots : List (Slot V)} {idx : Nat}
    (hidx : slotGet slots idx = Slot.empty) (hlen : idx < slots.length)
    {k : Nat} {v : V} {k' : Nat} {w : V} :
    HasPair (slots.set idx (Slot.taken k v)) k' w ↔
      HasPair slots k' w ∨ (k' = k ∧ w = v) := by
  constructor
  · rintro ⟨i, hi⟩
    by_cases h : i = idx
    · subst h
      rw [slotGet_set_eq hlen] at hi
      obtain ⟨h1, h2⟩ := Slot.taken.inj hi
      exact Or.inr ⟨h1.symm, h2.symm⟩
    · rw [slotGet_set_ne (fun hc => h hc.symm)] at hi
      exact Or.inl ⟨i, hi⟩
  · rintro (⟨i, hi⟩ | ⟨rfl, rfl⟩)
    · have hne : i ≠ idx := by
        intro hc
        rw [hc, hidx] at hi
        exact Slot.noConfusion hi
      exact ⟨i, by rwa [slotGet_set_ne (fun hc => hne hc.symm)]⟩
    · exact ⟨idx, slotGet_set_eq hlen _⟩

theorem find_eq_scan {m : HashMap V} (key : Nat) (hcap : ¬m.capacity = 0) :
    m.find key = scanFind m.slots key (m.prob_seq (key % m.capacity)) := by
  rw [find, if_neg hcap]

theorem prob_seq_eq_of_capacity_eq {m m' : HashMap V} (h : m.capacity = m'.capacity)
    (hash : Nat) : m.prob_seq hash = m'.prob_seq hash := by
  rw [prob_seq, prob_seq, h]

theorem find_mk (L : List (Slot V)) (n : Nat) (key : Nat) {m : HashMap V}
    (hlen : L.length = m.capacity) (hcap : ¬m.capacity = 0) :
    (⟨L, n⟩ : HashMap V).find key = scanFind L key (m.prob_seq (key % m.capacity)) := by
  have hc : (⟨L, n⟩ : HashMap V).capacity = m.capacity := by rw [capacity_mk, hlen]
  rw [find, hc, if_neg hcap, prob_seq_eq_of_capacity_eq hc.symm]

theorem insert_inner_find_new {m : HashMap V} {key : Nat} (v : V)
    (hnone : m.find key = none) {idx : Nat}
    (hfis : m.find_insert_slot (key % m.capacity) = some idx)
    (hempty : slotGet m.slots idx = Slot.empty) (hidxlt : idx < m.capacity) :
    (⟨m.slots.set idx (Slot.taken key v), m.items + 1⟩ : HashMap V).find key =
      some (idx, key, v) := by
  have hcap : ¬m.capacity = 0 := by omega
  rw [find_mk _ _ _ (by simp [capacity]) hcap]
  exact scanFind_set_new (prob_seq_nodup m _) (fun a ha => mem_prob_seq_bound ha) hfis
    (by rw [find_eq_scan key hcap] at hnone; exact hnone) v

theorem insert_inner_find_other {m : HashMap V} {key : Nat} (v : V) (hwf : WF m)
    (hnone : m.find key = none) {idx : Nat}
    (hempty : slotGet m.slots idx = Slot.empty) (hidxlt : idx < m.capacity)
    (k' : Nat) (hk' : k' ≠ key) :
    (⟨m.slots.set idx (Slot.taken key v), m.items + 1⟩ : HashMap V).find k' =
      m.find k' := by
  have hcap : ¬m.capacity = 0 := by omega
  cases hf : m.find k' with
  | some r =>
    rw [find_mk _ _ _ (by simp [capacity]) hcap]
    exact scanFind_set_of_empty hempty _ (by rw [find_eq_scan k' hcap] at hf; exact hf)
  | none =>
    apply find_none_of_no_key
    intro i w hc
    rw [slots_mk] at hc
    by_cases hi : i = idx
    · subst hi
      rw [slotGet_set_eq hidxlt] at hc
      exact hk' (Slot.taken.inj hc).1.symm
    · rw [slotGet_set_ne (fun hcc => hi hcc.symm)] at hc
      exact wf_no_pair_of_find_none hwf hf i w hc

theorem insert_inner_wf_aux {m : HashMap V} {key : Nat} (v : V) (hwf : WF m)
    (hnone : m.find key = none) {idx : Nat}
    (hfis : m.find_insert_slot (key % m.capacity) = some idx)
    (hempty : slotGet m.slots idx = Slot.empty) (hidxlt : idx < m.capacity) :
    WF (⟨m.slots.set idx (Slot.taken key v), m.items + 1⟩ : HashMap V) := by
  refine ⟨?_, ?_⟩
  · show m.items + 1 = countTaken (m.slots.set idx (Slot.taken key v))
    rw [countTaken_set_taken_of_empty hempty hidxlt]
    have hcnt : m.items = countTaken m.slots := hwf.count
    omega
  · intro i k0 w hsl
    rw [slots_mk] at hsl
    by_cases hi : i = idx
    · subst hi
      rw [slotGet_set_eq hidxlt] at hsl
      obtain ⟨rfl, rfl⟩ := Slot.taken.inj hsl
      exact insert_inner_find_new v hnone hfis hempty hidxlt
    · rw [slotGet_set_ne (fun hcc => hi hcc.symm)] at hsl
      have hk0 : k0 ≠ key := by
        intro hc
        subst hc
        exact wf_no_pair_of_find_none hwf hnone i w hsl
      rw [insert_inner_find_other v hwf hnone hempty hidxlt k0 hk0]
      exact hwf.found i k0 w hsl

/-- Core correctness of `insert_inner` on a well-formed table with room and
without the key: it writes the pair into some empty slot, preserves
well-formedness, makes the key findable with the new value, and leaves the
lookup of every other key unchanged. -/
theorem insert_inner_wf {m : HashMap V} {key : Nat} (v : V) (hwf : WF m)
    (hroom : m.items < m.capacity) (hnone : m.find key = none) :
    ∃ idx, slotGet m.slots idx = Slot.empty ∧ idx < m.capacity ∧
      m.insert_inner key v = some ⟨m.slots.set idx (Slot.taken key v), m.items + 1⟩ ∧
      WF (⟨m.slots.set idx (Slot.taken key v), m.items + 1⟩ : HashMap V) ∧
      (∀ k', k' ≠ key →
        (⟨m.slots.set idx (Slot.taken key v), m.items + 1⟩ : HashMap V).find k' = m.find k') ∧
      (⟨m.slots.set idx (Slot.taken key v), m.items + 1⟩ : HashMap V).find key =
        some (idx, key, v) := by
  have hcap : 0 < m.capacity := Nat.lt_of_le_of_lt (Nat.zero_le _) hroom
  have hc0 : ¬m.capacity = 0 := by omega
  have hcnt : countTaken m.slots < m.capacity := by
    have := hwf.count
    rw [Inv] at this
    omega
  obtain ⟨idx, hfis⟩ := find_insert_slot_total (key % m.capacity) hcnt
  obtain ⟨hempty, hidxlt⟩ := find_insert_slot_sound hfis
  refine ⟨idx, hempty, hidxlt, ?_, ?_, ?_, ?_⟩
  case _ => simp only [insert_inner, hfis]
  case _ => exact insert_inner_wf_aux v hwf hnone hfis hempty hidxlt
  case _ => exact fun k' hk' => insert_inner_find_other v hwf hnone hempty hidxlt k' hk'
  case _ => exact insert_inner_find_new v hnone hfis hempty hidxlt

/-! ### nextPow2 lemmas -/

theorem nextPow2Aux_ge {n : Nat} : ∀ (fuel p : Nat), p ≤ nextPow2Aux n fuel p := by
  intro fuel
  induction fuel with
  | zero => intro p; exact Nat.le_refl _
  | succ fuel ih =>
    intro p
    rw [nextPow2Aux]
    split
    · exact Nat.le_refl _
    · exact Nat.le_trans (by omega) (ih (2 * p))

theorem nextPow2Aux_ge_self {n : Nat} :
    ∀ (fuel p : Nat), n ≤ p * 2 ^ fuel → n ≤ nextPow2Aux n fuel p := by
  intro fuel
  induction fuel with
  | zero => intro p h; simpa using h
  | succ fuel ih =>
    intro p h
    rw [nextPow2Aux]
    split
    · assumption
    · refine ih (2 * p) ?_
      calc n ≤ p * 2 ^ (fuel + 1) := h
        _ = 2 * p * 2 ^ fuel := by ring

theorem nextPow2Aux_pow {n : Nat} :
    ∀ (fuel p : Nat), (∃ j, p = 2 ^ j) → ∃ j, nextPow2Aux n fuel p = 2 ^ j := by
  intro fuel
  induction fuel with
  | zero => intro p h; exact h
  | succ fuel ih =>
    intro p h
    rw [nextPow2Aux]
    split
    · exact h
    · obtain ⟨j, rfl⟩ := h
      exact ih (2 * 2 ^ j) ⟨j + 1, by ring⟩

theorem nextPow2_pos (n : Nat) : 1 ≤ nextPow2 n := nextPow2Aux_ge n 1

theorem nextPow2_ge (n : Nat) : n ≤ nextPow2 n :=
  nextPow2Aux_ge_self n 1 (by simpa using Nat.le_of_lt (Nat.lt_two_pow n))

theorem nextPow2_pow (n : Nat) : ∃ j, nextPow2 n = 2 ^ j :=
  nextPow2Aux_pow n 1 ⟨0, rfl⟩

/-! ### new_inner facts -/

theorem slotGet_replicate (c i : Nat) :
    slotGet (List.replicate c (Slot.empty : Slot V)) i = Slot.empty := by
  induction c generalizing i with
  | zero => rfl
  | succ c ih =>
    rw [List.replicate_succ]
    cases i with
    | zero => rfl
    | succ j => rw [slotGet_cons_succ]; exact ih j

theorem new_inner_capacity (n : Nat) : (new_inner n : HashMap V).capacity = nextPow2 n := by
  simp [new_inner, capacity]

theorem new_inner_items (n : Nat) : (new_inner n : HashMap V).items = 0 := rfl

theorem new_inner_wf (n : Nat) : WF (new_inner n : HashMap V) := by
  refine ⟨?_, ?_⟩
  · show (0 : Nat) = countTaken (List.replicate (nextPow2 n) Slot.empty)
    rw [countTaken_replicate]
  · intro i k v hsl
    rw [new_inner, slots_mk, slotGet_replicate] at hsl
    exact Slot.noConfusion hsl

theorem new_inner_no_pair (n : Nat) (k : Nat) (w : V) :
    ¬HasPair (new_inner n : HashMap V).slots k w := by
  rintro ⟨i, hi⟩
  rw [new_inner, slots_mk, slotGet_replicate] at hi
  exact Slot.noConfusion hi

/-! ### resizeLoop lemmas -/

/-- Success-conditioned bookkeeping of the migration loop: the counting
invariant is preserved, capacity is unchanged, and `items` grows by the
number of migrated slots. -/
theorem resizeLoop_spec {old : List (Slot V)} :
    ∀ {acc m' : HashMap V}, resizeLoop old acc = some m' → Inv acc →
      Inv m' ∧ m'.capacity = acc.capacity ∧ m'.items = acc.items + countTaken old := by
  induction old with
  | nil =>
    intro acc m' h hinv
    obtain rfl : acc = m' := Option.some.inj h
    exact ⟨hinv, rfl, by simp⟩
  | cons s rest ih =>
    intro acc m' h hinv
    cases s with
    | empty =>
      rw [resizeLoop] at h
      obtain ⟨h1, h2, h3⟩ := ih h hinv
      exact ⟨h1, h2, by simpa using h3⟩
    | taken k v =>
      rw [resizeLoop] at h
      cases hfis : acc.find_insert_slot (k % acc.capacity) with
      | none => rw [hfis] at h; exact Option.noConfusion h
      | some idx =>
        rw [hfis] at h
        obtain ⟨hempty, hidxlt⟩ := find_insert_slot_sound hfis
        have hinv2 : Inv (⟨acc.slots.set idx (Slot.taken k v), acc.items + 1⟩ : HashMap V) := by
          show acc.items + 1 = countTaken (acc.slots.set idx (Slot.taken k v))
          rw [countTaken_set_taken_of_empty hempty hidxlt]
          have : acc.items = countTaken acc.slots := hinv
          omega
        obtain ⟨h1, h2, h3⟩ := ih h hinv2
        refine ⟨h1, ?_, ?_⟩
        · rw [h2]; simp [capacity]
        · rw [h3]; simp; omega

/-- Totality of the migration loop: with the counting invariant and enough
room in the target, the loop never hits the `unreachable!()` panic. -/
theorem resizeLoop_total {old : List (Slot V)} :
    ∀ {acc : HashMap V}, Inv acc → countTaken old + acc.items ≤ acc.capacity →
      ∃ m', resizeLoop old acc = some m' := by
  induction old with
  | nil => intro acc _ _; exact ⟨acc, rfl⟩
  | cons s rest ih =>
    intro acc hinv hroom
    cases s with
    | empty =>
      rw [resizeLoop]
      exact ih hinv (by simpa using hroom)
    | taken k v =>
      rw [countTaken_cons_taken] at hroom
      have hlt : countTaken acc.slots < acc.capacity := by
        have : acc.items = countTaken acc.slots := hinv
        omega
      obtain ⟨idx, hfis⟩ := find_insert_slot_total (k % acc.capacity) hlt
      obtain ⟨hempty, hidxlt⟩ := find_insert_slot_sound hfis
      rw [resizeLoop, hfis]
      have hinv2 : Inv (⟨acc.slots.set idx (Slot.taken k v), acc.items + 1⟩ : HashMap V) := by
        show acc.items + 1 = countTaken (acc.slots.set idx (Slot.taken k v))
        rw [countTaken_set_taken_of_empty hempty hidxlt]
        have : acc.items = countTaken acc.slots := hinv
        omega
      refine ih hinv2 ?_
      simp only [items_mk, capacity_mk, List.length_set]
      have hcl : acc.capacity = acc.slots.length := rfl
      omega

/-! ### Distinct keys -/

theorem keysNodup_of_index_inj {slots : List (Slot V)}
    (h : ∀ i j k v w, slotGet slots i = Slot.taken k v →
      slotGet slots j = Slot.taken k w → i = j) :
    KeysNodup slots := by
  induction slots with
  | nil => trivial
  | cons s rest ih =>
    have hrest : ∀ i j k v w, slotGet rest i = Slot.taken k v →
        slotGet rest j = Slot.taken k w → i = j := by
      intro i j k v w hi hj
      have := h (i + 1) (j + 1) k v w hi hj
      omega
    cases s with
    | empty => exact ih hrest
    | taken k v =>
      refine ⟨?_, ih hrest⟩
      intro w hmem
      obtain ⟨i, hi⟩ := taken_mem_iff.mp hmem
      have h0 : slotGet (Slot.taken k v :: rest) 0 = Slot.taken k v := rfl
      have hsucc : slotGet (Slot.taken k v :: rest) (i + 1) = Slot.taken k w := hi
      have := h 0 (i + 1) k v w h0 hsucc
      omega

theorem wf_keysNodup {m : HashMap V} (hwf : WF m) : KeysNodup m.slots := by
  apply keysNodup_of_index_inj
  intro i j k v w hi hj
  have h1 := hwf.found i k v hi
  have h2 := hwf.found j k w hj
  have := h1.symm.trans h2
  exact (Prod.mk.inj (Option.some.inj this)).1

/-- Full functional correctness of the migration loop on a fresh target:
migrating a duplicate-free batch of slots that is disjoint from the
accumulator preserves well-formedness and realises exactly the union of the
stored pairs. -/
theorem resizeLoop_wf {old : List (Slot V)} :
    ∀ {acc : HashMap V}, WF acc → 0 < acc.capacity →
      countTaken old + acc.items ≤ acc.capacity → KeysNodup old →
      (∀ k v w, Slot.taken k v ∈ old → ¬HasPair acc.slots k w) →
      ∃ m', resizeLoop old acc = some m' ∧ WF m' ∧ m'.capacity = acc.capacity ∧
        m'.items = acc.items + countTaken old ∧
        (∀ k v, HasPair m'.slots k v ↔ HasPair acc.slots k v ∨ Slot.taken k v ∈ old) := by
  induction old with
  | nil =>
    intro acc hwf _ _ _ _
    exact ⟨acc, rfl, hwf, rfl, by simp, fun k v => by simp⟩
  | cons s rest ih =>
    intro acc hwf hcap hroom hnd hdisj
    cases s with
    | empty =>
      obtain ⟨m', hm', h2, h3, h4, h5⟩ := ih hwf hcap (by simpa using hroom) hnd
        (fun k v w hm => hdisj k v w (List.mem_cons_of_mem _ hm))
      refine ⟨m', hm', h2, h3, by simpa using h4, ?_⟩
      intro k v
      rw [h5]
      simp [List.mem_cons]
    | taken k v =>
      obtain ⟨hknot, hndrest⟩ := hnd
      rw [countTaken_cons_taken] at hroom
      have hnone : acc.find k = none :=
        find_none_of_no_key (fun i w hc => hdisj k v w (List.mem_cons_self _ _) ⟨i, hc⟩)
      have hcnt : acc.items = countTaken acc.slots := hwf.count
      have hlt : countTaken acc.slots < acc.capacity := by omega
      obtain ⟨idx, hfis⟩ := find_insert_slot_total (k % acc.capacity) hlt
      obtain ⟨hempty, hidxlt⟩ := find_insert_slot_sound hfis
      have hwf2 : WF (⟨acc.slots.set idx (Slot.taken k v), acc.items + 1⟩ : HashMap V) :=
        insert_inner_wf_aux v hwf hnone hfis hempty hidxlt
      have hpair2 : ∀ k0 w,
          HasPair (⟨acc.slots.set idx (Slot.taken k v), acc.items + 1⟩ : HashMap V).slots k0 w ↔
            HasPair acc.slots k0 w ∨ (k0 = k ∧ w = v) := by
        intro k0 w
        rw [slots_mk]
        exact hasPair_set_taken_iff hempty hidxlt
      have hcap2 : (0:Nat) <
          (⟨acc.slots.set idx (Slot.taken k v), acc.items + 1⟩ : HashMap V).capacity := by
        simp only [capacity_mk, List.length_set]
        exact Nat.lt_of_lt_of_le hcap (Nat.le_refl _)
      have hroom2 : countTaken rest +
          (⟨acc.slots.set idx (Slot.taken k v), acc.items + 1⟩ : HashMap V).items ≤
          (⟨acc.slots.set idx (Slot.taken k v), acc.items + 1⟩ : HashMap V).capacity := by
        simp only [items_mk, capacity_mk, List.length_set]
        have hcl : acc.capacity = acc.slots.length := rfl
        omega
      have hdisj2 : ∀ k0 v0 w, Slot.taken k0 v0 ∈ rest →
          ¬HasPair (⟨acc.slots.set idx (Slot.taken k v), acc.items + 1⟩ : HashMap V).slots k0 w := by
        intro k0 v0 w hmem hp
        rcases (hpair2 k0 w).mp hp with hl | ⟨rfl, _⟩
        · exact hdisj k0 v0 w (List.mem_cons_of_mem _ hmem) hl
        · exact hknot v0 hmem
      obtain ⟨m', hm', hw', hc', hi', hiff⟩ := ih hwf2 hcap2 hroom2 hndrest hdisj2
      refine ⟨m', ?_, hw', ?_, ?_, ?_⟩
      · rw [resizeLoop, hfis]
        exact hm'
      · rw [hc']
        simp [capacity]
      · rw [hi']
        simp only [items_mk, countTaken_cons_taken]
        omega
      · intro k0 w
        rw [hiff k0 w, hpair2 k0 w]
        simp only [List.mem_cons, Slot.taken.injEq]
        constructor
        · rintro ((hp | ⟨rfl, rfl⟩) | hmem)
          · exact Or.inl hp
          · exact Or.inr (Or.inl ⟨rfl, rfl⟩)
          · exact Or.inr (Or.inr hmem)
        · rintro (hp | (⟨rfl, rfl⟩ | hmem))
          · exact Or.inl (Or.inl hp)
          · exact Or.inl (Or.inr ⟨rfl, rfl⟩)
          · exact Or.inr hmem

/-- Full functional correctness of `resize` on a well-formed table: the
assertion passes, the result is well-formed with capacity
`nextPow2 new_size`, the item count is unchanged, and exactly the same pairs
are stored. -/
theorem resize_wf {m : HashMap V} {n : Nat} (hwf : WF m) (hn : m.items ≤ n) :
    ∃ m', m.resize n = some m' ∧ WF m' ∧ m'.capacity = nextPow2 n ∧
      m'.items = m.items ∧ (∀ k v, HasPair m'.slots k v ↔ HasPair m.slots k v) := by
  have hcnt : m.items = countTaken m.slots := hwf.count
  have hcap : (0:Nat) < (new_inner n : HashMap V).capacity := by
    rw [new_inner_capacity]
    exact nextPow2_pos n
  have hroom : countTaken m.slots + (new_inner n : HashMap V).items ≤
      (new_inner n : HashMap V).capacity := by
    rw [new_inner_items, new_inner_capacity]
    have := nextPow2_ge n
    omega
  obtain ⟨m', hm', hw', hc', hi', hiff⟩ := resizeLoop_wf (new_inner_wf n) hcap hroom
    (wf_keysNodup hwf) (fun k v w _ => new_inner_no_pair n k w)
  refine ⟨m', ?_, hw', ?_, ?_, ?_⟩
  · rw [resize, if_neg (by omega)]
    exact hm'
  · rw [hc', new_inner_capacity]
  · rw [hi', new_inner_items]
    omega
  · intro k v
    rw [hiff k v]
    constructor
    · rintro (hp | hmem)
      · exact (new_inner_no_pair n k v hp).elim
      · exact taken_mem_iff.mp hmem
    · intro hp
      exact Or.inr (taken_mem_iff.mpr hp)

/-! ### insert on well-formed tables -/

theorem find_set_value {m : HashMap V} {key i k : Nat} {w : V}
    (h : m.find key = some (i, k, w)) (v : V) :
    (⟨m.slots.set i (Slot.taken k v), m.items⟩ : HashMap V).find key = some (i, k, v) := by
  obtain ⟨hkey, hslot, hlt⟩ := find_sound h
  subst hkey
  have hcap : ¬m.capacity = 0 := by omega
  rw [find_mk _ _ _ (by simp [capacity]) hcap]
  exact scanFind_set_value (prob_seq_nodup m _)
    (by rw [find_eq_scan k hcap] at h; exact h) v

theorem find_set_value_other {m : HashMap V} {key i k : Nat} {w : V}
    (h : m.find key = some (i, k, w)) (v : V) {k' : Nat} (hk' : k' ≠ key) :
    (⟨m.slots.set i (Slot.taken k v), m.items⟩ : HashMap V).find k' = m.find k' := by
  obtain ⟨hkey, hslot, hlt⟩ := find_sound h
  have hcap : ¬m.capacity = 0 := by omega
  rw [find_mk _ _ _ (by simp [capacity]) hcap, find_eq_scan k' hcap]
  apply scanFind_congr
  intro idx hidx
  by_cases hii : idx = i
  · subst hii
    refine Or.inr ⟨k, v, w, fun hc => hk' (hc.symm.trans hkey), slotGet_set_eq hlt _, ?_⟩
    rw [hkey]
    exact hslot
  · exact Or.inl (slotGet_set_ne (fun hc => hii hc.symm) _)

theorem get_eq_of_pair_iff {m m1 : HashMap V} (hwf : WF m) (hw1 : WF m1)
    (hiff : ∀ k v, HasPair m1.slots k v ↔ HasPair m.slots k v) (k : Nat) :
    m1.get k = m.get k := by
  cases hfk : m.find k with
  | some r =>
    obtain ⟨i, k0, w⟩ := r
    obtain ⟨hk0, hslot, _⟩ := find_sound hfk
    have h1 : m1.get k = some w := wf_get_of_hasPair hw1 ((hiff k w).mpr ⟨i, hslot⟩)
    rw [h1, get, hfk]
    rfl
  | none =>
    have h1 : m1.find k = none := by
      apply find_none_of_no_key
      intro i w hc
      obtain ⟨j, hj⟩ := (hiff k w).mp ⟨i, hc⟩
      exact wf_no_pair_of_find_none hwf hfk j w hj
    rw [get, get, h1, hfk]

/-- The behaviour of `reserve 1` on a well-formed table holding no slot for
the key about to be inserted: it succeeds, preserves well-formedness, the
item count and the stored pairs, and afterwards there is room for one more
item. -/
theorem reserve_one_wf {m : HashMap V} (hwf : WF m) :
    ∃ m1, m.reserve 1 = some m1 ∧ WF m1 ∧ m1.items = m.items ∧
      m1.items < m1.capacity ∧
      (∀ k0 v0, HasPair m1.slots k0 v0 ↔ HasPair m.slots k0 v0) := by
  rw [reserve]
  by_cases hcond : 1 + m.items > m.capacity
  · rw [if_pos hcond]
    obtain ⟨m1, hm1, hw1, hc1, hi1, hiff⟩ := resize_wf hwf (by omega : m.items ≤ 1 + m.items)
    refine ⟨m1, hm1, hw1, hi1, ?_, hiff⟩
    have := nextPow2_ge (1 + m.items)
    omega
  · rw [if_neg hcond]
    exact ⟨m, rfl, hwf, rfl, by omega, fun _ _ => Iff.rfl⟩

/-- Full functional correctness of `insert` on a well-formed table: it
succeeds, returns the previous binding of the key, preserves
well-formedness and acts as a pointwise map update on `get`. -/
theorem insert_wf {m : HashMap V} (k : Nat) (v : V) (hwf : WF m) :
    ∃ m', m.insert k v = some (m', m.get k) ∧ WF m' ∧
      (∀ k', m'.get k' = if k' = k then some v else m.get k') := by
  cases hf : m.find k with
  | some r =>
    obtain ⟨i, k0, w⟩ := r
    obtain ⟨hkey, hslot, hlt⟩ := find_sound hf
    subst hkey
    refine ⟨⟨m.slots.set i (Slot.taken k0 v), m.items⟩, ?_, ⟨?_, ?_⟩, ?_⟩
    · simp [insert, hf, get]
    · show m.items = countTaken (m.slots.set i (Slot.taken k0 v))
      rw [countTaken_set_taken_of_taken hslot]
      exact hwf.count
    · intro j k1 w1 hsl
      rw [slots_mk] at hsl
      by_cases hj : j = i
      · subst hj
        rw [slotGet_set_eq hlt] at hsl
        obtain ⟨rfl, rfl⟩ := Slot.taken.inj hsl
        exact find_set_value hf v
      · rw [slotGet_set_ne (fun hc => hj hc.symm)] at hsl
        have hk1 : k1 ≠ k0 := by
          intro hc
          subst hc
          have := (hwf.found j k1 w1 hsl).symm.trans hf
          exact hj (Prod.mk.inj (Option.some.inj this)).1
        rw [find_set_value_other hf v hk1]
        exact hwf.found j k1 w1 hsl
    · intro k'
      by_cases hk' : k' = k0
      · subst hk'
        rw [if_pos rfl, get, find_set_value hf v]
        rfl
      · rw [if_neg hk', get, find_set_value_other hf v hk', get]
  | none =>
    have hget : m.get k = none := by simp [get, hf]
    obtain ⟨m1, hm1, hw1, hi1, hroom1, hiff1⟩ := reserve_one_wf hwf
    have hnone1 : m1.find k = none := by
      apply find_none_of_no_key
      intro i w hc
      obtain ⟨j, hj⟩ := (hiff1 k w).mp ⟨i, hc⟩
      exact wf_no_pair_of_find_none hwf hf j w hj
    obtain ⟨idx, hempty, hidxlt, hins, hw2, hother, hnew⟩ :=
      insert_inner_wf v hw1 hroom1 hnone1
    refine ⟨_, ?_, hw2, ?_⟩
    · rw [hget]
      simp only [insert, hf, hm1, hins]
    · intro k'
      by_cases hk' : k' = k
      · subst hk'
        rw [if_pos rfl, get, hnew]
        rfl
      · rw [if_neg hk', get, hother k' hk']
        have := get_eq_of_pair_iff hwf hw1 hiff1 k'
        rw [get] at this
        rw [this]

/-! ### Shape lemmas for successful operations -/

theorem insert_inner_shape {m m2 : HashMap V} {k : Nat} {v : V}
    (h : m.insert_inner k v = some m2) :
    ∃ idx, slotGet m.slots idx = Slot.empty ∧ idx < m.capacity ∧
      m2 = ⟨m.slots.set idx (Slot.taken k v), m.items + 1⟩ := by
  rw [insert_inner] at h
  cases hfis : m.find_insert_slot (k % m.capacity) with
  | none => rw [hfis] at h; exact Option.noConfusion h
  | some idx =>
    rw [hfis] at h
    obtain ⟨he, hl⟩ := find_insert_slot_sound hfis
    exact ⟨idx, he, hl, (Option.some.inj h).symm⟩

theorem insert_inner_total {m : HashMap V} (k : Nat) (v : V) (hinv : Inv m)
    (hroom : m.items < m.capacity) : ∃ m2, m.insert_inner k v = some m2 := by
  have : countTaken m.slots < m.capacity := by
    have h0 : m.items = countTaken m.slots := hinv
    omega
  obtain ⟨idx, hfis⟩ := find_insert_slot_total (k % m.capacity) this
  exact ⟨_, by rw [insert_inner, hfis]⟩

theorem resize_shape {m m' : HashMap V} {n : Nat} (h : m.resize n = some m') :
    ¬n < m.items ∧ resizeLoop m.slots (new_inner n) = some m' := by
  rw [resize] at h
  by_cases hc : n < m.items
  · rw [if_pos hc] at h; exact Option.noConfusion h
  · rw [if_neg hc] at h; exact ⟨hc, h⟩

theorem resize_capacity {m m' : HashMap V} {n : Nat} (h : m.resize n = some m') :
    m'.capacity = nextPow2 n := by
  obtain ⟨-, hl⟩ := resize_shape h
  obtain ⟨-, hc, -⟩ := resizeLoop_spec hl (new_inner_wf n).count
  rw [hc, new_inner_capacity]

theorem resize_inv {m m' : HashMap V} {n : Nat} (h : m.resize n = some m')
    (hinv : Inv m) : Inv m' ∧ m'.items = m.items := by
  obtain ⟨-, hl⟩ := resize_shape h
  obtain ⟨h1, -, h3⟩ := resizeLoop_spec hl (new_inner_wf n).count
  refine ⟨h1, ?_⟩
  rw [h3, new_inner_items]
  have h0 : m.items = countTaken m.slots := hinv
  omega

theorem resize_total {m : HashMap V} {n : Nat} (hinv : Inv m) (hn : m.items ≤ n) :
    ∃ m', m.resize n = some m' := by
  have h0 : m.items = countTaken m.slots := hinv
  have hroom : countTaken m.slots + (new_inner n : HashMap V).items ≤
      (new_inner n : HashMap V).capacity := by
    rw [new_inner_items, new_inner_capacity]
    have := nextPow2_ge n
    omega
  obtain ⟨m', hm'⟩ := resizeLoop_total (new_inner_wf n).count hroom
  exact ⟨m', by rw [resize, if_neg (by omega)]; exact hm'⟩

theorem reserve_shape {m m1 : HashMap V} {n : Nat} (h : m.reserve n = some m1) :
    (n + m.items > m.capacity ∧ m.resize (n + m.items) = some m1) ∨
      (¬n + m.items > m.capacity ∧ m1 = m) := by
  rw [reserve] at h
  by_cases hc : n + m.items > m.capacity
  · rw [if_pos hc] at h; exact Or.inl ⟨hc, h⟩
  · rw [if_neg hc] at h; exact Or.inr ⟨hc, (Option.some.inj h).symm⟩

theorem reserve_inv {m m1 : HashMap V} {n : Nat} (h : m.reserve n = some m1)
    (hinv : Inv m) : Inv m1 ∧ m1.items = m.items := by
  rcases reserve_shape h with ⟨-, hres⟩ | ⟨-, rfl⟩
  · exact resize_inv hres hinv
  · exact ⟨hinv, rfl⟩

theorem reserve_one_total {m : HashMap V} (hinv : Inv m) :
    ∃ m1, m.reserve 1 = some m1 ∧ Inv m1 ∧ m1.items = m.items ∧
      m1.items < m1.capacity := by
  by_cases hc : 1 + m.items > m.capacity
  · obtain ⟨m1, hm1⟩ := resize_total hinv (by omega : m.items ≤ 1 + m.items)
    obtain ⟨h1, h2⟩ := resize_inv hm1 hinv
    have hcap := resize_capacity hm1
    have := nextPow2_ge (1 + m.items)
    exact ⟨m1, by rw [reserve, if_pos hc]; exact hm1, h1, h2, by omega⟩
  · exact ⟨m, by rw [reserve, if_neg hc], hinv, rfl, by omega⟩

theorem insert_cases {m m' : HashMap V} {k : Nat} {v : V} {r : Option V}
    (h : m.insert k v = some (m', r)) :
    (∃ i k0 w, m.find k = some (i, k0, w) ∧ r = some w ∧
      m' = ⟨m.slots.set i (Slot.taken k0 v), m.items⟩) ∨
    (m.find k = none ∧ r = none ∧
      ∃ m1, m.reserve 1 = some m1 ∧ m1.insert_inner k v = some m') := by
  cases hf : m.find k with
  | some t =>
    obtain ⟨i, k0, w⟩ := t
    simp only [insert, hf] at h
    obtain ⟨h1, h2⟩ := Prod.mk.inj (Option.some.inj h)
    exact Or.inl ⟨i, k0, w, rfl, h2.symm, h1.symm⟩
  | none =>
    simp only [insert, hf] at h
    cases hres : m.reserve 1 with
    | none => simp only [hres] at h; exact Option.noConfusion h
    | some m1 =>
      simp only [hres] at h
      cases hins : m1.insert_inner k v with
      | none => simp only [hins] at h; exact Option.noConfusion h
      | some m2 =>
        simp only [hins] at h
        obtain ⟨h1, h2⟩ := Prod.mk.inj (Option.some.inj h)
        exact Or.inr ⟨rfl, h2.symm, m1, rfl, h1 ▸ hins⟩

theorem insert_inv {m m' : HashMap V} {k : Nat} {v : V} {r : Option V}
    (h : m.insert k v = some (m', r)) (hinv : Inv m) : Inv m' := by
  rcases insert_cases h with ⟨i, k0, w, hf, -, rfl⟩ | ⟨-, -, m1, hres, hins⟩
  · show m.items = countTaken (m.slots.set i (Slot.taken k0 v))
    rw [countTaken_set_taken_of_taken (find_sound hf).2.1]
    exact hinv
  · obtain ⟨hinv1, -⟩ := reserve_inv hres hinv
    obtain ⟨idx, he, hl, rfl⟩ := insert_inner_shape hins
    show m1.items + 1 = countTaken (m1.slots.set idx (Slot.taken k v))
    rw [countTaken_set_taken_of_empty he hl]
    have h0 : m1.items = countTaken m1.slots := hinv1
    omega

theorem insert_total {m : HashMap V} (k : Nat) (v : V) (hinv : Inv m) :
    ∃ m' r, m.insert k v = some (m', r) := by
  cases hf : m.find k with
  | some t =>
    obtain ⟨i, k0, w⟩ := t
    exact ⟨_, _, by rw [insert, hf]⟩
  | none =>
    obtain ⟨m1, hm1, hinv1, -, hroom1⟩ := reserve_one_total hinv
    obtain ⟨m2, hm2⟩ := insert_inner_total k v hinv1 hroom1
    exact ⟨m2, none, by simp only [insert, hf, hm1, hm2]⟩

theorem remove_cases (m : HashMap V) (k : Nat) :
    (m.find k = none ∧ m.remove k = (m, none)) ∨
    ∃ i k0 w, m.find k = some (i, k0, w) ∧
      m.remove k = (⟨m.slots.set i Slot.empty, m.items - 1⟩, some w) := by
  cases hf : m.find k with
  | none => exact Or.inl ⟨rfl, by rw [remove, hf]⟩
  | some t =>
    obtain ⟨i, k0, w⟩ := t
    exact Or.inr ⟨i, k0, w, rfl, by rw [remove, hf]⟩

theorem remove_inv {m : HashMap V} (k : Nat) (hinv : Inv m) : Inv (m.remove k).1 := by
  rcases remove_cases m k with ⟨-, heq⟩ | ⟨i, k0, w, hf, heq⟩
  · rw [heq]; exact hinv
  · rw [heq]
    show m.items - 1 = countTaken (m.slots.set i Slot.empty)
    have hcnt := countTaken_set_empty_of_taken (find_sound hf).2.1
    have h0 : m.items = countTaken m.slots := hinv
    omega

/-! ### Invariants of all reachable states -/

theorem new_inv : Inv (new : HashMap V) := rfl

theorem new_inner_inv (n : Nat) : Inv (new_inner n : HashMap V) := (new_inner_wf n).count

theorem reachable_inv {m : HashMap V} (h : Reachable m) : Inv m := by
  induction h with
  | new_r => exact new_inv
  | with_capacity_r n => exact new_inner_inv n
  | insert_r _ heq ih => exact insert_inv heq ih
  | remove_r k _ ih => exact remove_inv k ih
  | reserve_r n _ heq ih => exact (reserve_inv heq ih).1
  | resize_r n _ heq ih => exact (resize_inv heq ih).1

/-- The capacity is zero or a power of two. -/
def PowCap (m : HashMap V) : Prop := m.capacity = 0 ∨ ∃ j, m.capacity = 2 ^ j

theorem reachable_powcap {m : HashMap V} (h : Reachable m) : PowCap m := by
  induction h with
  | new_r => exact Or.inl rfl
  | with_capacity_r n => exact Or.inr ((new_inner_capacity n).symm ▸ nextPow2_pow n)
  | insert_r heq h ih =>
    rcases insert_cases h with ⟨i, k0, w, -, -, rfl⟩ | ⟨-, -, m1, hres, hins⟩
    · rcases ih with h0 | ⟨j, hj⟩
      · exact Or.inl (by simpa [capacity, List.length_set] using h0)
      · exact Or.inr ⟨j, by simpa [capacity, List.length_set] using hj⟩
    · obtain ⟨idx, -, -, rfl⟩ := insert_inner_shape hins
      have hm1 : PowCap m1 := by
        rcases reserve_shape hres with ⟨-, hr⟩ | ⟨-, rfl⟩
        · exact Or.inr ((resize_capacity hr).symm ▸ nextPow2_pow _)
        · exact ih
      rcases hm1 with h0 | ⟨j, hj⟩
      · exact Or.inl (by simpa [capacity, List.length_set] using h0)
      · exact Or.inr ⟨j, by simpa [capacity, List.length_set] using hj⟩
  | remove_r k _ ih =>
    rcases remove_cases _ k with ⟨-, heq⟩ | ⟨i, k0, w, -, heq⟩
    · rw [heq]; exact ih
    · rw [heq]
      rcases ih with h0 | ⟨j, hj⟩
      · exact Or.inl (by simpa [capacity, List.length_set] using h0)
      · exact Or.inr ⟨j, by simpa [capacity, List.length_set] using hj⟩
  | reserve_r n _ heq ih =>
    rcases reserve_shape heq with ⟨-, hr⟩ | ⟨-, rfl⟩
    · exact Or.inr ((resize_capacity hr).symm ▸ nextPow2_pow _)
    · exact ih
  | resize_r n _ heq ih => exact Or.inr ((resize_capacity heq).symm ▸ nextPow2_pow _)

/-! ### Batches of inserts -/

theorem new_wf : WF (new : HashMap V) :=
  ⟨rfl, fun _ _ _ h => Slot.noConfusion h⟩

theorem lastVal_isSome_of_mem {ops : List (Nat × V)} {k : Nat}
    (h : k ∈ ops.map Prod.fst) : ∃ w, lastVal ops k = some w := by
  induction ops with
  | nil => simp at h
  | cons p rest ih =>
    obtain ⟨k0, v0⟩ := p
    cases hl : lastVal rest k with
    | some w => exact ⟨w, by simp only [lastVal, hl]⟩
    | none =>
      rw [List.map_cons] at h
      rcases List.mem_cons.mp h with h1 | hmem
      · have hk : k = k0 := h1
        exact ⟨v0, by simp only [lastVal, hl, if_pos hk.symm]⟩
      · obtain ⟨w, hw⟩ := ih hmem
        rw [hl] at hw
        exact Option.noConfusion hw

theorem runInserts_wf {ops : List (Nat × V)} :
    ∀ {m : HashMap V}, WF m → ∃ m', runInserts m ops = some m' ∧ WF m' ∧
      ∀ k, m'.get k =
        match lastVal ops k with
        | some w => some w
        | none => m.get k := by
  induction ops with
  | nil => exact fun hwf => ⟨_, rfl, hwf, fun k => rfl⟩
  | cons p rest ih =>
    intro m hwf
    obtain ⟨k0, v0⟩ := p
    obtain ⟨m1, hins, hw1, hupd⟩ := insert_wf k0 v0 hwf
    obtain ⟨m', hrun, hw', hget⟩ := ih hw1
    refine ⟨m', ?_, hw', ?_⟩
    · simp only [runInserts, hins, hrun]
    · intro k
      rw [hget k]
      cases hl : lastVal rest k with
      | some w => simp only [lastVal, hl]
      | none =>
        simp only [lastVal, hl]
        rw [hupd k]
        by_cases hk : k = k0
        · subst hk
          simp
        · rw [if_neg hk, if_neg (fun hc => hk hc.symm)]

/-! ### find versus the spec-modelled lookup -/

theorem scanFind_vs_stop {slots : List (Slot V)} {key : Nat} :
    ∀ (L : List Nat), (scanFind slots key L).map (fun r => r.1) =
      match L.find? (fun idx => stopSlot key (slotGet slots idx)) with
      | none => none
      | some idx =>
        match slotGet slots idx with
        | Slot.empty => none
        | Slot.taken _ _ => some idx := by
  intro L
  induction L with
  | nil => rfl
  | cons a rest ih =>
    rw [List.find?_cons]
    cases hs : slotGet slots a with
    | empty => simp [scanFind, hs, stopSlot]
    | taken k0 v0 =>
      by_cases hk : k0 = key
      · subst hk
        simp [scanFind, hs, stopSlot]
      · have hbeq : (k0 == key) = false := by simp [hk]
        simpa [scanFind, hs, stopSlot, hbeq, hk] using ih

theorem find_vs_findSpec (m : HashMap V) (key : Nat) :
    (m.find key).map (fun r => r.1) = m.findSpec key := by
  by_cases hc : m.capacity = 0
  · rw [find, findSpec, if_pos hc, if_pos hc]
    rfl
  · rw [find, findSpec, if_neg hc, if_neg hc]
    exact scanFind_vs_stop _

end HashMap

namespace HashMap

/-! ## The claims -/

/-- A concrete reachable table used by several witnesses below. -/
theorem reachable_demo : Reachable (⟨[Slot.taken 2 10, Slot.empty], 1⟩ : HashMap Nat) :=
  Reachable.insert_r (Reachable.with_capacity_r 2)
    (by decide :
      (HashMap.with_capacity 2 : HashMap Nat).insert 2 10 =
        some (⟨[Slot.taken 2 10, Slot.empty], 1⟩, none))

/-- C1.  Round-trip: for every sequence of `insert` calls starting from a
fresh table (with no intervening removes), a subsequent `get` on each
inserted key returns `some` of the last value inserted for that key. -/
theorem c1_round_trip {V : Type} (ops : List (Nat × V)) (m : HashMap V)
    (hrun : runInserts HashMap.new ops = some m) (k : Nat)
    (hk : k ∈ ops.map Prod.fst) : m.get k = lastVal ops k := by
  obtain ⟨m', hm', -, hget⟩ := @runInserts_wf V ops HashMap.new new_wf
  rw [hrun] at hm'
  obtain rfl := Option.some.inj hm'
  obtain ⟨w, hw⟩ := lastVal_isSome_of_mem hk
  rw [hget k, hw]

theorem c1_round_trip_witness :
    (⟨[Slot.taken 0 30, Slot.taken 1 20], 2⟩ : HashMap Nat).get 0 =
      lastVal [(0, 10), (1, 20), (0, 30)] 0 :=
  c1_round_trip [(0, 10), (1, 20), (0, 30)] _ (by decide) 0 (by decide)

/-- C2.  Lookup algorithm: `find` (and hence `get`) agrees with the lookup
procedure described by the spec (`findSpec`): not found at capacity 0;
otherwise scan `(key % capacity + i) % capacity` for `i = 0, …, capacity - 1`,
report not-found at the first `Empty` slot and found at the first `Taken`
slot with a matching key (not-found on exhaustion). -/
theorem c2_lookup_algorithm {V : Type} (m : HashMap V) (key : Nat) :
    (m.find key).map (fun r => r.1) = m.findSpec key ∧
    (m.get key).isSome = (m.findSpec key).isSome := by
  refine ⟨find_vs_findSpec m key, ?_⟩
  rw [get, ← find_vs_findSpec m key]
  cases m.find key <;> rfl

/-- C3.  Remove can break lookups for keys later in the same probe chain:
with capacity 2, insert keys 0 and 2 (which collide at index 0), remove 0;
then `get 2` returns `none` although the pair `(2, 20)` is still stored in
slot 1. -/
theorem c3_remove_breaks_chain :
    (HashMap.with_capacity 2 : HashMap Nat).insert 0 10 =
        some (⟨[Slot.taken 0 10, Slot.empty], 1⟩, none) ∧
      (⟨[Slot.taken 0 10, Slot.empty], 1⟩ : HashMap Nat).insert 2 20 =
        some (⟨[Slot.taken 0 10, Slot.taken 2 20], 2⟩, none) ∧
      (⟨[Slot.taken 0 10, Slot.taken 2 20], 2⟩ : HashMap Nat).remove 0 =
        (⟨[Slot.empty, Slot.taken 2 20], 1⟩, some 10) ∧
      (⟨[Slot.empty, Slot.taken 2 20], 1⟩ : HashMap Nat).get 2 = none ∧
      slotGet (⟨[Slot.empty, Slot.taken 2 20], 1⟩ : HashMap Nat).slots 1 =
        Slot.taken 2 20 := by
  decide

/-- C4.  Update semantics of `insert` on a reachable table: inserting a key
that is currently findable returns `some` of the previous value, leaves
`len` unchanged and performs no growth; inserting a key that is not findable
returns `none` and increments `len` by 1. -/
theorem c4_update_semantics {V : Type} (m : HashMap V) (hm : Reachable m)
    (k : Nat) (v : V) :
    ((m.get k).isSome → ∃ m' w, m.insert k v = some (m', some w) ∧
      m.get k = some w ∧ m'.len = m.len ∧ m'.capacity = m.capacity) ∧
    (m.get k = none → ∃ m', m.insert k v = some (m', none) ∧
      m'.len = m.len + 1) := by
  have hinv := reachable_inv hm
  constructor
  · intro hsome
    cases hf : m.find k with
    | none => rw [get, hf] at hsome; simp at hsome
    | some t =>
      obtain ⟨i, k0, w⟩ := t
      refine ⟨⟨m.slots.set i (Slot.taken k0 v), m.items⟩, w, ?_, ?_, rfl, ?_⟩
      · simp only [insert, hf]
      · rw [get, hf]; rfl
      · show (m.slots.set i (Slot.taken k0 v)).length = m.slots.length
        exact List.length_set _ _ _
  · intro hnone0
    have hf : m.find k = none := by
      cases hf : m.find k with
      | none => rfl
      | some t => rw [get, hf] at hnone0; simp at hnone0
    obtain ⟨m1, hm1, hinv1, hitems1, hroom1⟩ := reserve_one_total hinv
    obtain ⟨m2, hm2⟩ := insert_inner_total k v hinv1 hroom1
    obtain ⟨idx, he, hl, rfl⟩ := insert_inner_shape hm2
    refine ⟨⟨m1.slots.set idx (Slot.taken k v), m1.items + 1⟩, ?_, ?_⟩
    · simp only [insert, hf, hm1, hm2]
    · show m1.items + 1 = m.items + 1
      omega

theorem c4_update_semantics_witness :
    ∃ m' w, (⟨[Slot.taken 2 10, Slot.empty], 1⟩ : HashMap Nat).insert 2 99 =
        some (m', some w) ∧
      (⟨[Slot.taken 2 10, Slot.empty], 1⟩ : HashMap Nat).get 2 = some w ∧
      m'.len = (⟨[Slot.taken 2 10, Slot.empty], 1⟩ : HashMap Nat).len ∧
      m'.capacity = (⟨[Slot.taken 2 10, Slot.empty], 1⟩ : HashMap Nat).capacity :=
  (c4_update_semantics _ reachable_demo 2 99).1 (by decide)

/-- C5.  Removing a findable key marks the found slot `Empty`, decrements
`len` by exactly 1, and returns `some` of the value stored in that slot. -/
theorem c5_remove_found {V : Type} (m : HashMap V) (hm : Reachable m)
    (k i k0 : Nat) (v : V) (hf : m.find k = some (i, k0, v)) :
    m.remove k = (⟨m.slots.set i Slot.empty, m.items - 1⟩, some v) ∧
    slotGet m.slots i = Slot.taken k v ∧
    (⟨m.slots.set i Slot.empty, m.items - 1⟩ : HashMap V).len + 1 = m.len := by
  have hinv := reachable_inv hm
  obtain ⟨hk0, hslot, -⟩ := find_sound hf
  refine ⟨by rw [remove, hf], hslot, ?_⟩
  show m.items - 1 + 1 = m.items
  have h1 := countTaken_set_empty_of_taken hslot
  have h0 : m.items = countTaken m.slots := hinv
  omega

theorem c5_remove_found_witness :
    (⟨[Slot.taken 2 10, Slot.empty], 1⟩ : HashMap Nat).remove 2 =
        (⟨[Slot.taken 2 10, Slot.empty].set 0 Slot.empty, 1 - 1⟩, some 10) ∧
      slotGet [Slot.taken 2 10, Slot.empty] 0 = Slot.taken 2 10 ∧
      (⟨[Slot.taken 2 10, Slot.empty].set 0 Slot.empty, 1 - 1⟩ : HashMap Nat).len + 1 =
        (⟨[Slot.taken 2 10, Slot.empty], 1⟩ : HashMap Nat).len :=
  c5_remove_found _ reachable_demo 2 0 2 10 (by decide)

/-- C6 (counterexample).  After inserting key 0 into `with_capacity 1`, the
table is completely full: `len` is not less than `capacity`, the single slot
is `Taken`, and looking up key 1 exhausts the whole probe sequence (no slot
is `Empty` and no key matches) before returning not-found — refuting both
halves of the claim. -/
theorem c6_counterexample :
    (HashMap.with_capacity 1 : HashMap Nat).insert 0 5 =
        some (⟨[Slot.taken 0 5], 1⟩, none) ∧
      ¬((⟨[Slot.taken 0 5], 1⟩ : HashMap Nat).len <
        (⟨[Slot.taken 0 5], 1⟩ : HashMap Nat).capacity) ∧
      slotGet (⟨[Slot.taken 0 5], 1⟩ : HashMap Nat).slots 0 = Slot.taken 0 5 ∧
      (⟨[Slot.taken 0 5], 1⟩ : HashMap Nat).get 1 = none := by
  decide

/-- C6 (amended).  After every successful insert on a reachable table,
`len ≤ capacity`; the table may be completely full (`len = capacity`), in
which case the branch of `find` that exhausts the full probe sequence
without meeting an `Empty` slot is reachable and returns not-found. -/
theorem c6_len_le_capacity {V : Type} (m : HashMap V) (hm : Reachable m)
    (k : Nat) (v : V) (m' : HashMap V) (r : Option V)
    (h : m.insert k v = some (m', r)) : m'.len ≤ m'.capacity := by
  have hinv' : Inv m' := insert_inv h (reachable_inv hm)
  have h0 : m'.items = countTaken m'.slots := hinv'
  have h1 := countTaken_le_length m'.slots
  show m'.items ≤ m'.slots.length
  omega

theorem c6_len_le_capacity_witness :
    (⟨[Slot.taken 0 5], 1⟩ : HashMap Nat).len ≤
      (⟨[Slot.taken 0 5], 1⟩ : HashMap Nat).capacity :=
  c6_len_le_capacity (HashMap.with_capacity 1) (Reachable.with_capacity_r 1)
    0 5 ⟨[Slot.taken 0 5], 1⟩ none (by decide)

/-- C7.  Capacity is always 0 or a power of two in every reachable state;
`with_capacity 12` yields capacity 16, and inserting key 15 into that table
leaves the capacity at 16. -/
theorem c7_capacity_power_of_two :
    (∀ (V : Type) (m : HashMap V), Reachable m →
      m.capacity = 0 ∨ ∃ j, m.capacity = 2 ^ j) ∧
    (HashMap.with_capacity 12 : HashMap Nat).capacity = 16 ∧
    (∀ (m' : HashMap Nat) (r : Option Nat),
      (HashMap.with_capacity 12 : HashMap Nat).insert 15 99 = some (m', r) →
      m'.capacity = 16) := by
  refine ⟨fun V m hm => reachable_powcap hm, by decide, ?_⟩
  intro m' r h
  have hstep : (HashMap.with_capacity 12 : HashMap Nat).insert 15 99 =
      some (⟨(List.replicate 16 (Slot.empty : Slot Nat)).set 15 (Slot.taken 15 99), 1⟩,
        none) := by decide
  rw [hstep] at h
  obtain ⟨h1, -⟩ := Prod.mk.inj (Option.some.inj h)
  rw [← h1]
  decide

theorem c7_capacity_power_of_two_witness :
    ((HashMap.with_capacity 12 : HashMap Nat).capacity = 0 ∨
      ∃ j, (HashMap.with_capacity 12 : HashMap Nat).capacity = 2 ^ j) ∧
    (⟨(List.replicate 16 (Slot.empty : Slot Nat)).set 15 (Slot.taken 15 99), 1⟩ :
      HashMap Nat).capacity = 16 :=
  ⟨c7_capacity_power_of_two.1 Nat _ (Reachable.with_capacity_r 12),
    c7_capacity_power_of_two.2.2 _ none (by decide)⟩

/-- C8.  Resize contract: calling `resize` with a target smaller than `len`
panics (modelled as `none`); on a reachable table with pairwise-distinct
stored keys (the spec's data-model invariant, which `remove` can break) and
a target of at least `len`, `resize` completes and every stored pair remains
retrievable by `get` under the new capacity. -/
theorem c8_resize_contract {V : Type} (m : HashMap V) (n : Nat) :
    (n < m.len → m.resize n = none) ∧
    (Reachable m → KeysNodup m.slots → m.len ≤ n →
      ∃ m', m.resize n = some m' ∧
        ∀ i k v, slotGet m.slots i = Slot.taken k v → m'.get k = some v) := by
  constructor
  · intro hlt
    rw [resize, if_pos (show n < m.items from hlt)]
  · intro hm hnd hle
    have hinv := reachable_inv hm
    have hcnt : m.items = countTaken m.slots := hinv
    have hlen : m.items ≤ n := hle
    have hcap : (0:Nat) < (new_inner n : HashMap V).capacity := by
      rw [new_inner_capacity]
      exact nextPow2_pos n
    have hroom : countTaken m.slots + (new_inner n : HashMap V).items ≤
        (new_inner n : HashMap V).capacity := by
      rw [new_inner_items, new_inner_capacity]
      have := nextPow2_ge n
      omega
    obtain ⟨m', hm', hw', -, -, hiff⟩ := resizeLoop_wf (new_inner_wf n) hcap hroom hnd
      (fun k v w _ => new_inner_no_pair n k w)
    refine ⟨m', ?_, ?_⟩
    · rw [resize, if_neg (by omega)]
      exact hm'
    · intro i k v hsl
      exact wf_get_of_hasPair hw' ((hiff k v).mpr (Or.inr (taken_mem_iff.mpr ⟨i, hsl⟩)))

theorem c8_resize_contract_witness :
    (⟨[Slot.taken 2 10, Slot.empty], 1⟩ : HashMap Nat).resize 0 = none ∧
    ∃ m', (⟨[Slot.taken 2 10, Slot.empty], 1⟩ : HashMap Nat).resize 4 = some m' ∧
      ∀ i k v, slotGet [Slot.taken 2 10, Slot.empty] i = Slot.taken k v →
        m'.get k = some v :=
  ⟨(c8_resize_contract _ 0).1 (by decide),
    (c8_resize_contract _ 4).2 reachable_demo
      ⟨fun v hv => by simp at hv, trivial⟩ (by decide)⟩

/-- C9.  The `unreachable!()` in `find_insert_slot` (modelled as the `none`
result that `insert_inner`, `insert` and `resize` propagate) is never hit
from `insert` on a reachable table, nor from `resize` with a target of at
least `len`: both operations always produce a state. -/
theorem c9_no_unreachable_panic {V : Type} (m : HashMap V) (hm : Reachable m) :
    (∀ (k : Nat) (v : V), ∃ m' r, m.insert k v = some (m', r)) ∧
    (∀ n, m.len ≤ n → ∃ m', m.resize n = some m') := by
  have hinv := reachable_inv hm
  exact ⟨fun k v => insert_total k v hinv, fun n hn => resize_total hinv hn⟩

theorem c9_no_unreachable_panic_witness :
    (∃ m' r, (⟨[Slot.taken 2 10, Slot.empty], 1⟩ : HashMap Nat).insert 7 1 =
      some (m', r)) ∧
    (∃ m', (⟨[Slot.taken 2 10, Slot.empty], 1⟩ : HashMap Nat).resize 3 = some m') :=
  ⟨(c9_no_unreachable_panic _ reachable_demo).1 7 1,
    (c9_no_unreachable_panic _ reachable_demo).2 3 (by decide)⟩

/-- C10.  `with_capacity 0` produces an allocated table of one slot
(`next_power_of_two 0 = 1`), not the unallocated capacity-0 state of
`new`. -/
theorem c10_with_capacity_zero :
    (HashMap.with_capacity 0 : HashMap Nat).capacity = 1 ∧
    (HashMap.with_capacity 0 : HashMap Nat).slots = [Slot.empty] ∧
    (HashMap.new : HashMap Nat).capacity = 0 ∧
    (HashMap.new : HashMap Nat).slots = [] := by
  decide

end HashMap
